import Mathlib

/-!
# Orderbook-Scraper: batched subscription and resilient forwarding

A shallow embedding of the three Go source files

* `main.go`                  (the partition loop of `main`),
* `api/deribit.go`           (`BatchSubscribeDeribitContracts`, `createOrderBookChannels`,
                              `handleReconnection`),
* `kafka/kafka_producer.go`  (`ProduceToKafka`, `RetryProduceToKafka`, `maxRetry`),

followed by the properties proved about them.

Modelling conventions.

* Go `int` is 64 bits wide.  A `[]string` of length `n` occupies `16 * n` bytes, so
  `n < 2 ^ 59`; the counter `i` of the loop of `main` is below `n` when `i + B` is computed and
  is a multiple of `B`, so `i + B` does not wrap for any positive `int` `B` (`B = 50` in the
  code); indices are `Nat`.
* A Go `string` produced by `encoding/json` is valid UTF-8, so instrument names are
  Lean `String`s and `+` is `++`.  A `[]byte` payload is a list of bytes.
* Everything the worker does to the outside (Kafka, the WebSocket, the context, the
  clock, the `sync.WaitGroup`) is recorded, in program order, as an `Event` in the `trace`
  of a `World`.  What the outside answers is read from an `Env`: the `k`-th call of each
  kind gets the `k`-th answer, so every pattern of failures can be expressed.
* `log.Println` / `log.Printf` output is not recorded.
* The goroutines of `main` share nothing but the `sync.WaitGroup` counter, which no worker
  reads.  A run of the whole program is a schedule of `Step`s: an iteration of the loop of
  `main`, or the next event of one goroutine; `Program.exec` follows the counter along it.
* Loops whose number of iterations is not bounded by the code (`for { ... }` of the worker,
  the recursion worker -> `handleReconnection` -> worker, the counter loop of `main`) take a
  fuel argument and return `none` when it runs out; `none` never stands for a Go result.
-/

namespace OrderBookScraper

/-! ## `main.go` -/

/-- The constant `OptionsContractBatchSize` of `api/deribit.go`. -/
def OptionsContractBatchSize : Nat := 50

/-- The slice expression `contracts[i:j]` for `i ≤ j ≤ len(contracts)`. -/
def slice {α : Type} (contracts : List α) (i j : Nat) : List α :=
  (contracts.drop i).take (j - i)

/-- The loop `for i := 0; i < len(contracts); i += B { ... }` of `main`, started at counter
value `i`.  The result lists, in launch order, the argument `contracts[i:end]` of each
`go api.BatchSubscribeDeribitContracts(ctx, &wg, contracts[i:end])`. -/
def batchLoop {α : Type} (B : Nat) (contracts : List α) : Nat → Nat → Option (List (List α))
  | 0, _ => none
  | fuel + 1, i =>
    if i < contracts.length then
      let end_ := if i + B > contracts.length then contracts.length else i + B
      match batchLoop B contracts fuel (i + B) with
      | none => none
      | some rest => some (slice contracts i end_ :: rest)
    else some []

/-- The batches launched by `main`: the loop above from `i = 0`.  When `B > 0` the loop body
runs at most `len(contracts)` times, so `len(contracts) + 1` units of fuel are enough. -/
def mainBatches {α : Type} (B : Nat) (contracts : List α) : Option (List (List α)) :=
  batchLoop B contracts (contracts.length + 1) 0

/-! ## The outside world -/

/-- A message payload (`[]byte`). -/
abbrev Bytes := List (Fin 256)

/-- One observable action of a worker.  Producers and connections are numbered in the order
in which `InitKafkaProducer` and `Dial` were called. -/
inductive Event where
  | kafkaInit (producer : Nat) (ok : Bool)
  | producerClose (producer : Nat)
  | dial (conn : Nat) (ok : Bool)
  | connClose (conn : Nat)
  | writeJSON (conn : Nat) (channels : List String) (ok : Bool)
  | ctxDone (cancelled : Bool)
  | readMessage (conn : Nat) (msg : Option Bytes)
  | sendMessage (producer : Nat) (payload : Bytes) (ok : Bool)
  | sleep (seconds : Nat)
  | wgAdd (delta : Nat)
  | wgDone
  deriving DecidableEq

/-- The answers of the outside: whether the `k`-th `InitKafkaProducer`, `Dial`, `WriteJSON`
succeeds, what the `k`-th `ReadMessage` returns (`none` is a read error), whether the context
is cancelled at the `k`-th `select` on `ctx.Done()`, and whether the `k`-th `SendMessage`
succeeds. -/
structure Env where
  kafkaInitOk : Nat → Bool
  dialOk : Nat → Bool
  writeOk : Nat → Bool
  readResult : Nat → Option Bytes
  cancelled : Nat → Bool
  sendOk : Nat → Bool

/-- The state threaded through a worker: how many calls of each kind have been made, the
`sync.WaitGroup` counter, and the events so far (oldest first). -/
structure World where
  producers : Nat
  dials : Nat
  writes : Nat
  reads : Nat
  checks : Nat
  sends : Nat
  wg : Int
  trace : List Event
  deriving DecidableEq

/-- Record an event. -/
def World.emit (w : World) (e : Event) : World :=
  { w with trace := w.trace ++ [e] }

/-- The call `wg.Done()`. -/
def World.done (w : World) : World :=
  { w with wg := w.wg - 1, trace := w.trace ++ [Event.wgDone] }

/-- The state in which `main` starts a worker: nothing has happened except the `wg.Add(1)`
that precedes the `go` statement. -/
def World.start : World :=
  { producers := 0, dials := 0, writes := 0, reads := 0, checks := 0, sends := 0,
    wg := 1, trace := [] }

/-! ## `kafka/kafka_producer.go` -/

/-- The constant `maxRetry`. -/
def maxRetry : Nat := 5

/-- `ProduceToKafka`: one `producer.SendMessage` with the payload as given; the returned
`Bool` is `err == nil`. -/
def ProduceToKafka (env : Env) (producer : Nat) (msg : Bytes) (w : World) : Bool × World :=
  let ok := env.sendOk w.sends
  (ok, { w with sends := w.sends + 1,
                trace := w.trace ++ [Event.sendMessage producer msg ok] })

/-- The body of `for attempt := 1; attempt <= maxRetry; attempt++` in `RetryProduceToKafka`,
run for the remaining values of `attempt`: return on success, otherwise
`time.Sleep(time.Duration(attempt*2) * time.Second)` and go on. -/
def retryAttempts (env : Env) (producer : Nat) (msg : Bytes) : List Nat → World → World
  | [], w => w
  | attempt :: rest, w =>
    match ProduceToKafka env producer msg w with
    | (true, w1) => w1
    | (false, w1) => retryAttempts env producer msg rest (w1.emit (Event.sleep (attempt * 2)))

/-- `RetryProduceToKafka`: `attempt` runs through `1, ..., maxRetry`. -/
def RetryProduceToKafka (env : Env) (producer : Nat) (msg : Bytes) (w : World) : World :=
  retryAttempts env producer msg (List.range' 1 maxRetry) w

/-! ## `api/deribit.go` -/

/-- `createOrderBookChannels`: `append` one channel name per contract to a slice that starts
out `nil`. -/
def createOrderBookChannels (contracts : List String) : List String :=
  contracts.foldl (fun channels contract => channels ++ ["book." ++ contract ++ ".100ms"]) []

/-- `handleReconnection`.  The worker it restarts is passed in as `worker`; in the code it is
`BatchSubscribeDeribitContracts` itself. -/
def handleReconnection (env : Env) (worker : List String → World → Option World)
    (contracts : List String) (w : World) : Option World :=
  let w1 := w.emit (Event.sleep 5)
  let cancelled := env.cancelled w1.checks
  let w2 := { w1 with checks := w1.checks + 1, trace := w1.trace ++ [Event.ctxDone cancelled] }
  if cancelled then some w2
  else worker contracts ({ w2 with wg := w2.wg + 1 }.emit (Event.wgAdd 1))

/-- The publish path of the read loop (lines 112-118 of `api/deribit.go`):
`err = kafka.ProduceToKafka(producer, msg)` and, when `err != nil`,
`kafka.RetryProduceToKafka(producer, msg)`. -/
def publish (env : Env) (producer : Nat) (msg : Bytes) (w : World) : World :=
  match ProduceToKafka env producer msg w with
  | (true, w1) => w1
  | (false, w1) => RetryProduceToKafka env producer msg w1

/-- The loop `for { select { case <-ctx.Done(): return; default: ... } }` of
`BatchSubscribeDeribitContracts`, up to the point where the function starts to return.
`reconnect` is the call `handleReconnection(ctx, contracts, wg)` of the read-error branch. -/
def readLoop (env : Env) (reconnect : World → Option World) (producer conn : Nat) :
    Nat → World → Option World
  | 0, _ => none
  | fuel + 1, w =>
    let cancelled := env.cancelled w.checks
    let w1 := { w with checks := w.checks + 1, trace := w.trace ++ [Event.ctxDone cancelled] }
    if cancelled then some w1
    else
      let r := env.readResult w1.reads
      let w2 := { w1 with reads := w1.reads + 1,
                          trace := w1.trace ++ [Event.readMessage conn r] }
      match r with
      | none => reconnect w2
      | some msg => readLoop env reconnect producer conn fuel (publish env producer msg w2)

/-- `BatchSubscribeDeribitContracts`.  The deferred calls run, last registered first, on every
return path: `conn.Close()`, `producer.Close()`, `wg.Done()`. -/
def BatchSubscribeDeribitContracts (env : Env) : Nat → List String → World → Option World
  | 0, _, _ => none
  | fuel + 1, contracts, w =>
    let producer := w.producers
    let initOk := env.kafkaInitOk producer
    let w1 := { w with producers := w.producers + 1,
                       trace := w.trace ++ [Event.kafkaInit producer initOk] }
    if !initOk then some w1.done
    else
      let conn := w1.dials
      let dialOk := env.dialOk conn
      let w2 := { w1 with dials := w1.dials + 1, trace := w1.trace ++ [Event.dial conn dialOk] }
      if !dialOk then some (w2.emit (Event.producerClose producer)).done
      else
        let writeOk := env.writeOk w2.writes
        let w3 := { w2 with
          writes := w2.writes + 1,
          trace := w2.trace ++
            [Event.writeJSON conn (createOrderBookChannels contracts) writeOk] }
        if !writeOk then
          some ((w3.emit (Event.connClose conn)).emit (Event.producerClose producer)).done
        else
          match readLoop env
              (handleReconnection env (BatchSubscribeDeribitContracts env fuel) contracts)
              producer conn (fuel + 1) w3 with
          | none => none
          | some w4 =>
            some ((w4.emit (Event.connClose conn)).emit (Event.producerClose producer)).done

/-! ## Reading a trace -/

/-- Payloads handed to the sink, in order. -/
def sentPayloads : List Event → List Bytes
  | [] => []
  | Event.sendMessage _ payload _ :: rest => payload :: sentPayloads rest
  | _ :: rest => sentPayloads rest

/-- Results of `ReadMessage`, in order. -/
def readResults : List Event → List (Option Bytes)
  | [] => []
  | Event.readMessage _ r :: rest => r :: readResults rest
  | _ :: rest => readResults rest

/-- Whether an event is a sink send. -/
def Event.isSend : Event → Bool
  | Event.sendMessage _ _ _ => true
  | _ => false

/-- Whether an event is a `time.Sleep`. -/
def Event.isSleep : Event → Bool
  | Event.sleep _ => true
  | _ => false

/-- Whether every `time.Sleep` of the trace is followed, later in the trace, by a sink send. -/
def sleepsOnlyBeforeSend : List Event → Bool
  | [] => true
  | e :: rest => (!e.isSleep || rest.any Event.isSend) && sleepsOnlyBeforeSend rest

/-- Net effect of a trace on the `sync.WaitGroup` counter. -/
def wgBalance : List Event → Int
  | [] => 0
  | Event.wgAdd delta :: rest => (delta : Int) + wgBalance rest
  | Event.wgDone :: rest => wgBalance rest - 1
  | _ :: rest => wgBalance rest

/-- Connections open after a trace, given those open before it: a successful `Dial` opens
one, `conn.Close()` closes it. -/
def openConns : List Nat → List Event → List Nat
  | acc, [] => acc
  | acc, Event.dial conn true :: rest => openConns (acc ++ [conn]) rest
  | acc, Event.connClose conn :: rest => openConns (acc.filter (fun c => c != conn)) rest
  | acc, _ :: rest => openConns acc rest

/-- The largest number of connections open at the same time in the course of a trace. -/
def maxOpenConns : List Nat → List Event → Nat
  | acc, [] => acc.length
  | acc, e :: rest => max acc.length (maxOpenConns (openConns acc [e]) rest)

/-! ## Environments used as concrete inputs -/

/-- Everything succeeds, the sink included; messages `[k]` arrive for ever; no cancellation. -/
def envHealthy : Env where
  kafkaInitOk := fun _ => true
  dialOk := fun _ => true
  writeOk := fun _ => true
  readResult := fun k => some [Fin.ofNat k]
  cancelled := fun _ => false
  sendOk := fun _ => true

/-- The sink fails on every send. -/
def envSinkDown : Env :=
  { envHealthy with sendOk := fun _ => false }

/-- The first `Dial` fails; the context is never cancelled. -/
def envDialFails : Env :=
  { envHealthy with dialOk := fun k => decide (k ≠ 0) }

/-- The first `WriteJSON` fails; the context is never cancelled. -/
def envSubscribeFails : Env :=
  { envHealthy with writeOk := fun k => decide (k ≠ 0) }

/-- Two messages arrive, then the read fails; the sink fails on its first three sends; the
second connection delivers one message; cancellation is seen at the sixth check. -/
def envScenario : Env where
  kafkaInitOk := fun _ => true
  dialOk := fun _ => true
  writeOk := fun _ => true
  readResult := fun k =>
    if k = 0 then some [1, 2] else if k = 1 then some [3] else if k = 3 then some [4] else none
  cancelled := fun k => decide (5 ≤ k)
  sendOk := fun k => decide (3 ≤ k)

/-- The first read fails, the reconnection succeeds, and cancellation is seen at the top of
the second worker's read loop. -/
def envOneDrop : Env :=
  { envHealthy with readResult := fun _ => none, cancelled := fun k => decide (2 ≤ k) }

/-- The first read fails and cancellation is seen right after the cool-down. -/
def envCancelAfterDrop : Env :=
  { envHealthy with readResult := fun _ => none, cancelled := fun k => decide (1 ≤ k) }

/-! ## Vocabulary of the statements -/

/-- The events of the publish path when every send fails. -/
def publishFailureEvents (producer : Nat) (msg : Bytes) : List Event :=
  [Event.sendMessage producer msg false,
   Event.sendMessage producer msg false, Event.sleep 2,
   Event.sendMessage producer msg false, Event.sleep 4,
   Event.sendMessage producer msg false, Event.sleep 6,
   Event.sendMessage producer msg false, Event.sleep 8,
   Event.sendMessage producer msg false, Event.sleep 10]

/-- The trace of the run in which the first read fails and the reconnection succeeds. -/
def oneDropTrace : List Event :=
  [Event.kafkaInit 0 true, Event.dial 0 true,
   Event.writeJSON 0 ["book.BTC-27DEC24-100000-C.100ms"] true,
   Event.ctxDone false, Event.readMessage 0 none,
   Event.sleep 5, Event.ctxDone false, Event.wgAdd 1,
   Event.kafkaInit 1 true, Event.dial 1 true,
   Event.writeJSON 1 ["book.BTC-27DEC24-100000-C.100ms"] true,
   Event.ctxDone true,
   Event.connClose 1, Event.producerClose 1, Event.wgDone,
   Event.connClose 0, Event.producerClose 0, Event.wgDone]

/-- The state in which that run returns. -/
def oneDropFinal : World :=
  { producers := 2, dials := 2, writes := 2, reads := 1, checks := 3, sends := 0,
    wg := 0, trace := oneDropTrace }

/-- An event of the publish path for `msg`: a send of `msg` through `producer`, or a sleep. -/
def IsPublishEvent (producer : Nat) (msg : Bytes) (e : Event) : Prop :=
  (∃ ok, e = Event.sendMessage producer msg ok) ∨ (∃ s, e = Event.sleep s)

/-- A stretch of events that leaves the `sync.WaitGroup` counter where it found it and never
takes it below that value on the way. -/
def WgNeutral (ev : List Event) : Prop :=
  wgBalance ev = 0 ∧ ∀ n, 0 ≤ wgBalance (ev.take n)

/-- World `r` is world `w` after the events `ev`, as far as the trace and the
`sync.WaitGroup` counter go. -/
def Follows (w r : World) (ev : List Event) : Prop :=
  r.trace = w.trace ++ ev ∧ r.wg = w.wg + wgBalance ev

/-- The first `InitKafkaProducer` fails. -/
def envKafkaDown : Env :=
  { envHealthy with kafkaInitOk := fun k => decide (k ≠ 0) }

/-- The first read fails, and the `Dial` of the worker that `handleReconnection` starts fails;
the context is never cancelled. -/
def envRedialFails : Env :=
  { envHealthy with readResult := fun _ => none, dialOk := fun k => decide (k = 0) }

/-! ## The whole program: `main` and its goroutines -/

/-- One step of the running program: `main` runs the next iteration of its loop
(`wg.Add(1)` and the `go` statement for the next batch), or the goroutine started for batch
number `k` performs its next event. -/
inductive Step where
  | launch
  | run (k : Nat)

/-- A point in a run of the program: how many iterations of the loop of `main` are done, how
many events each goroutine has performed, and the value of the shared `sync.WaitGroup`
counter. -/
structure Program where
  launched : Nat
  progress : Nat → Nat
  wg : Int

/-- The program before the loop of `main`: `var wg sync.WaitGroup`. -/
def Program.atStart : Program :=
  { launched := 0, progress := fun _ => 0, wg := 0 }

/-- Perform one step, when it is possible: `chains` lists, per batch in launch order, the
events that the worker/reconnection chain of the batch performs.  The events of one goroutine
happen in their own order; goroutines and `main` interleave freely. -/
def Program.step (chains : List (List Event)) (p : Program) : Step → Option Program
  | Step.launch =>
    if p.launched < chains.length then some { p with launched := p.launched + 1, wg := p.wg + 1 }
    else none
  | Step.run k =>
    if k < p.launched then
      match (chains.getD k [])[p.progress k]? with
      | some e =>
        some { p with progress := Function.update p.progress k (p.progress k + 1),
                      wg := p.wg + wgBalance [e] }
      | none => none
    else none

/-- Perform a schedule, step by step. -/
def Program.exec (chains : List (List Event)) : Program → List Step → Option Program
  | p, [] => some p
  | p, s :: rest =>
    match p.step chains s with
    | none => none
    | some q => Program.exec chains q rest

/-- The events of a returning invocation, as far as the counter goes: a neutral stretch
followed by the invocation's own `wg.Done()`. -/
def IsChain (evs : List Event) : Prop :=
  ∃ ev, evs = ev ++ [Event.wgDone] ∧ WgNeutral ev

/-- What holds at every point of a run. -/
def Program.Sound (chains : List (List Event)) (p : Program) : Prop :=
  p.launched ≤ chains.length ∧
  (∀ k, p.launched ≤ k → p.progress k = 0) ∧
  (∀ k, p.progress k ≤ (chains.getD k []).length) ∧
  p.wg = ∑ k in Finset.range p.launched,
    (1 + wgBalance ((chains.getD k []).take (p.progress k)))

/-- Fifty-one instruments: two batches. -/
def twoBatchContracts : List String :=
  List.replicate 51 "BTC-27DEC24-100000-C"

/-- The first batch of `twoBatchContracts`. -/
def firstBatch : List String :=
  List.replicate 50 "BTC-27DEC24-100000-C"

/-- The second batch of `twoBatchContracts`. -/
def secondBatch : List String :=
  ["BTC-27DEC24-100000-C"]

/-- The worker of the first batch returns at once: `InitKafkaProducer` fails. -/
def runKafkaDown : World :=
  { World.start with
    producers := 1, wg := 0, trace := [Event.kafkaInit 0 false, Event.wgDone] }

/-- The worker of the second batch returns after its `Dial` has failed. -/
def runDialFails : World :=
  { World.start with
    producers := 1, dials := 1, wg := 0,
    trace := [Event.kafkaInit 0 true, Event.dial 0 false, Event.producerClose 0,
      Event.wgDone] }

/-- The point reached by: first iteration of `main`, the first goroutine runs to its end,
second iteration of `main`. -/
def secondLaunched : Program :=
  { launched := 2, progress := Function.update (Function.update (fun _ => 0) 0 1) 0 2,
    wg := 1 }

/-- The chain in which the first read fails and the `Dial` of the restarted worker fails. -/
def redialTrace : List Event :=
  [Event.kafkaInit 0 true, Event.dial 0 true,
   Event.writeJSON 0 ["book.BTC-27DEC24-100000-C.100ms"] true,
   Event.ctxDone false, Event.readMessage 0 none,
   Event.sleep 5, Event.ctxDone false, Event.wgAdd 1,
   Event.kafkaInit 1 true, Event.dial 1 false,
   Event.producerClose 1, Event.wgDone,
   Event.connClose 0, Event.producerClose 0, Event.wgDone]

/-! ## The partition loop -/

theorem slice_eq_take_drop {α : Type} (B : Nat) (contracts : List α) (i : Nat) :
    slice contracts i (if i + B > contracts.length then contracts.length else i + B) =
      (contracts.drop i).take B := by
  unfold slice
  split
  · next h =>
    rw [List.take_of_length_le (by simp), List.take_of_length_le (by simp; omega)]
  · simp

theorem ceil_step {B n : Nat} (hB : 0 < B) (hn : 0 < n) :
    (n + B - 1) / B = (n - B + B - 1) / B + 1 := by
  by_cases h : B ≤ n
  · have e1 : n + B - 1 = (n - 1) + B := by omega
    have e2 : n - B + B - 1 = n - 1 := by omega
    rw [e1, e2, Nat.add_div_right _ hB]
  · have e1 : n + B - 1 = (n - 1) + B := by omega
    have e2 : n - B + B - 1 = B - 1 := by omega
    rw [e1, e2, Nat.add_div_right _ hB, Nat.div_eq_of_lt (by omega), Nat.div_eq_of_lt (by omega)]

/-- Closed form of the loop: it returns, and batch `k` counted from the counter value `i` is
`contracts[i + k*B : i + k*B + B]` cut off at the end of the input. -/
theorem batchLoop_eq {α : Type} (B : Nat) (hB : 0 < B) (contracts : List α) :
    ∀ fuel i, contracts.length - i < fuel →
      batchLoop B contracts fuel i =
        some ((List.range ((contracts.length - i + B - 1) / B)).map
          (fun k => (contracts.drop (i + k * B)).take B)) := by
  intro fuel
  induction fuel with
  | zero => intro i h; omega
  | succ fuel ih =>
    intro i h
    unfold batchLoop
    by_cases hi : i < contracts.length
    · rw [if_pos hi, ih (i + B) (by omega)]
      simp only [slice_eq_take_drop]
      have hstep := ceil_step hB (show 0 < contracts.length - i by omega)
      have e : contracts.length - i - B = contracts.length - (i + B) := by omega
      rw [e] at hstep
      rw [hstep, List.range_succ_eq_map]
      simp only [List.map_cons, List.map_map, Nat.zero_mul, Nat.add_zero, Option.some.injEq,
        List.cons.injEq, true_and]
      apply List.map_congr_left
      intro k _
      simp only [Function.comp, Nat.succ_eq_add_one]
      congr 2
      ring
    · rw [if_neg hi]
      have : (contracts.length - i + B - 1) / B = 0 := by
        apply Nat.div_eq_of_lt; omega
      rw [this]; rfl

theorem flatten_chunks {α : Type} (B : Nat) (contracts : List α) :
    ∀ m i, contracts.length ≤ i + m * B →
      ((List.range m).map (fun k => (contracts.drop (i + k * B)).take B)).flatten =
        contracts.drop i := by
  intro m
  induction m with
  | zero => intro i h; simp at h; simp [List.drop_eq_nil_of_le h]
  | succ m ih =>
    intro i h
    rw [List.range_succ_eq_map]
    simp only [List.map_cons, List.map_map, List.flatten_cons, Nat.zero_mul, Nat.add_zero]
    have : (fun k => (contracts.drop (i + k * B)).take B) ∘ Nat.succ =
        fun k => (contracts.drop ((i + B) + k * B)).take B := by
      funext k; simp only [Function.comp, Nat.succ_eq_add_one]; congr 2; ring
    rw [this, ih (i + B) (by rw [Nat.succ_mul] at h; omega)]
    rw [← List.drop_drop, List.take_append_drop]

theorem ceil_mul_ge (B n : Nat) (hB : 0 < B) : n ≤ (n + B - 1) / B * B := by
  have h1 := Nat.div_add_mod (n + B - 1) B
  have h2 := Nat.mod_lt (n + B - 1) hB
  have h3 : B * ((n + B - 1) / B) = (n + B - 1) / B * B := Nat.mul_comm _ _
  omega

/-- What `main` launches, in closed form. -/
theorem mainBatches_eq {α : Type} (B : Nat) (hB : 0 < B) (contracts : List α) :
    mainBatches B contracts =
      some ((List.range ((contracts.length + B - 1) / B)).map
        (fun k => (contracts.drop (k * B)).take B)) := by
  unfold mainBatches
  rw [batchLoop_eq B hB contracts _ 0 (by omega)]
  simp

/-- C1.  For every instrument sequence and every batch size `B > 0`, the partition loop of
`main` returns, the batches it launches, concatenated in launch order, are the input sequence
itself, and batch number `k` is exactly the stretch of `B` consecutive input positions that
starts at position `k * B` (cut off at the end of the input): positions are covered once, in
order, without overlap. -/
theorem partition_concat {α : Type} (B : Nat) (hB : 0 < B) (contracts : List α) :
    ∃ batches, mainBatches B contracts = some batches ∧
      batches.flatten = contracts ∧
      (∀ k, k < batches.length → batches[k]? = some ((contracts.drop (k * B)).take B)) ∧
      (∀ p, p < contracts.length →
        ∃ batch, batches[p / B]? = some batch ∧ batch[p % B]? = contracts[p]?) := by
  refine ⟨_, mainBatches_eq B hB contracts, ?_, ?_, ?_⟩
  · have := flatten_chunks B contracts ((contracts.length + B - 1) / B) 0
      (by simpa using ceil_mul_ge B contracts.length hB)
    simpa using this
  · intro k hk
    simp only [List.length_map, List.length_range] at hk
    simp [List.getElem?_map, List.getElem?_range hk]
  · intro p hp
    have hlt : p / B < (contracts.length + B - 1) / B := by
      rw [Nat.div_lt_iff_lt_mul hB]
      have := ceil_mul_ge B contracts.length hB
      have h1 := Nat.div_add_mod p B
      have h2 := Nat.mod_lt p hB
      have h3 : B * (p / B) = p / B * B := Nat.mul_comm _ _
      have h4 : p / B * B ≤ p := by omega
      omega
    refine ⟨(contracts.drop (p / B * B)).take B, ?_, ?_⟩
    · simp [List.getElem?_map, List.getElem?_range hlt]
    · rw [List.getElem?_take_of_lt (Nat.mod_lt p hB), List.getElem?_drop]
      congr 1
      have h1 := Nat.div_add_mod p B
      have h3 : B * (p / B) = p / B * B := Nat.mul_comm _ _
      omega

theorem partition_concat_witness :
    ∃ batches, mainBatches 2 [10, 20, 30, 40, 50] = some batches ∧
      batches.flatten = [10, 20, 30, 40, 50] ∧
      (∀ k, k < batches.length →
        batches[k]? = some (([10, 20, 30, 40, 50].drop (k * 2)).take 2)) ∧
      (∀ p, p < [10, 20, 30, 40, 50].length →
        ∃ batch, batches[p / 2]? = some batch ∧ batch[p % 2]? = [10, 20, 30, 40, 50][p]?) :=
  partition_concat 2 (by decide) [10, 20, 30, 40, 50]

theorem chunk_sizes (B n : Nat) (hB : 0 < B) :
    (List.range ((n + B - 1) / B)).map (fun k => min B (n - k * B)) =
      List.replicate (n / B) B ++ (if n % B = 0 then [] else [n % B]) := by
  have h1 := Nat.div_add_mod n B
  have h2 := Nat.mod_lt n hB
  by_cases h0 : n % B = 0
  · have hq : (n + B - 1) / B = n / B := by
      have e : n + B - 1 = B - 1 + B * (n / B) := by omega
      rw [e, Nat.add_mul_div_left _ _ hB, Nat.div_eq_of_lt (by omega)]; omega
    rw [hq, if_pos h0, List.append_nil, List.eq_replicate_iff]
    refine ⟨by simp, ?_⟩
    intro b hb
    simp only [List.mem_map, List.mem_range] at hb
    obtain ⟨k, hk, rfl⟩ := hb
    have h3 : (k + 1) * B ≤ n / B * B := Nat.mul_le_mul_right B hk
    have h4 : B * (n / B) = n / B * B := Nat.mul_comm _ _
    have h5 : (k + 1) * B = k * B + B := by ring
    omega
  · have hq : (n + B - 1) / B = n / B + 1 := by
      have e : n + B - 1 = (n % B - 1) + B * (n / B + 1) := by
        rw [Nat.mul_add]; omega
      rw [e, Nat.add_mul_div_left _ _ hB, Nat.div_eq_of_lt (by omega)]; omega
    rw [hq, if_neg h0, List.range_succ, List.map_append]
    congr 1
    · rw [List.eq_replicate_iff]
      refine ⟨by simp, ?_⟩
      intro b hb
      simp only [List.mem_map, List.mem_range] at hb
      obtain ⟨k, hk, rfl⟩ := hb
      have h3 : (k + 1) * B ≤ n / B * B := Nat.mul_le_mul_right B hk
      have h4 : B * (n / B) = n / B * B := Nat.mul_comm _ _
      have h5 : (k + 1) * B = k * B + B := by ring
      omega
    · simp only [List.map_cons, List.map_nil, List.cons.injEq, and_true]
      have h4 : B * (n / B) = n / B * B := Nat.mul_comm _ _
      omega

/-- C2.  For every instrument sequence of length `N` and every batch size `B > 0`, the
partition loop of `main` returns exactly `⌈N / B⌉` batches (none when `N = 0`); their sizes,
in order, are `N / B` times `B`, followed by `N mod B` when that is not zero, so every batch
but the last has size `B`, the last has size `N mod B`, or `B` when `N mod B = 0`, and no
batch is empty; 120 instruments with `B = 50` give sizes `[50, 50, 20]`. -/
theorem partition_sizes {α : Type} (B : Nat) (hB : 0 < B) (contracts : List α) :
    ∃ batches, mainBatches B contracts = some batches ∧
      batches.length = (contracts.length + B - 1) / B ∧
      (contracts.length = 0 → batches = []) ∧
      batches.map List.length =
        List.replicate (contracts.length / B) B ++
          (if contracts.length % B = 0 then [] else [contracts.length % B]) ∧
      (∀ k, k + 1 < batches.length → batches[k]?.map List.length = some B) ∧
      (∀ last, batches.getLast? = some last →
        last.length = if contracts.length % B = 0 then B else contracts.length % B) ∧
      (∀ batch ∈ batches, batch ≠ []) ∧
      (contracts.length = 120 → B = OptionsContractBatchSize →
        batches.map List.length = [50, 50, 20]) := by
  have hsizes : ((List.range ((contracts.length + B - 1) / B)).map
      (fun k => (contracts.drop (k * B)).take B)).map List.length =
        List.replicate (contracts.length / B) B ++
          (if contracts.length % B = 0 then [] else [contracts.length % B]) := by
    rw [← chunk_sizes B contracts.length hB, List.map_map]
    apply List.map_congr_left
    intro k _
    simp
  have hmod := Nat.mod_lt contracts.length hB
  refine ⟨_, mainBatches_eq B hB contracts, by simp, ?_, hsizes, ?_, ?_, ?_, ?_⟩
  · intro h0
    have : (contracts.length + B - 1) / B = 0 := by
      apply Nat.div_eq_of_lt; omega
    rw [this]; rfl
  · intro k hk
    generalize (List.range ((contracts.length + B - 1) / B)).map
      (fun k => (contracts.drop (k * B)).take B) = batches at hsizes hk
    have hlen : batches.length = contracts.length / B +
        (if contracts.length % B = 0 then [] else [contracts.length % B]).length := by
      have := congrArg List.length hsizes
      simpa using this
    have hk2 : k < contracts.length / B := by
      split at hlen <;> simp at hlen <;> omega
    have := congrArg (fun l => l[k]?) hsizes
    simp only [List.getElem?_map] at this
    rw [this, List.getElem?_append_left (by simpa using hk2)]
    simp [List.getElem?_replicate, hk2]
  · intro last hlast
    generalize (List.range ((contracts.length + B - 1) / B)).map
      (fun k => (contracts.drop (k * B)).take B) = batches at hsizes hlast
    have h1 : (batches.map List.length).getLast? = some last.length := by
      rw [List.getLast?_map, hlast]; rfl
    rw [hsizes] at h1
    by_cases h0 : contracts.length % B = 0
    · rw [if_pos h0] at h1 ⊢
      rw [List.append_nil] at h1
      have hmem := List.mem_of_getLast?_eq_some h1
      exact (List.eq_of_mem_replicate hmem)
    · rw [if_neg h0] at h1 ⊢
      rw [List.getLast?_append] at h1
      simpa using h1.symm
  · intro batch hb habs
    generalize (List.range ((contracts.length + B - 1) / B)).map
      (fun k => (contracts.drop (k * B)).take B) = batches at hsizes hb
    have hmem : batch.length ∈ batches.map List.length := List.mem_map_of_mem _ hb
    rw [hsizes, habs] at hmem
    simp only [List.length_nil, List.mem_append] at hmem
    rcases hmem with h | h
    · have := List.eq_of_mem_replicate h; omega
    · split at h
      · simp at h
      · simp at h; omega
  · intro hN hBv
    rw [hsizes, hN, hBv]
    decide

theorem partition_sizes_witness :
    ∃ batches, mainBatches 50 (List.range 120) = some batches ∧
      batches.length = ((List.range 120).length + 50 - 1) / 50 ∧
      ((List.range 120).length = 0 → batches = []) ∧
      batches.map List.length =
        List.replicate ((List.range 120).length / 50) 50 ++
          (if (List.range 120).length % 50 = 0 then [] else [(List.range 120).length % 50]) ∧
      (∀ k, k + 1 < batches.length → batches[k]?.map List.length = some 50) ∧
      (∀ last, batches.getLast? = some last →
        last.length = if (List.range 120).length % 50 = 0 then 50
          else (List.range 120).length % 50) ∧
      (∀ batch ∈ batches, batch ≠ []) ∧
      ((List.range 120).length = 120 → 50 = OptionsContractBatchSize →
        batches.map List.length = [50, 50, 20]) :=
  partition_sizes 50 (by decide) (List.range 120)

/-! ## Channel names -/

theorem foldl_append_singleton {α β : Type} (f : α → β) (xs : List α) (acc : List β) :
    xs.foldl (fun channels x => channels ++ [f x]) acc = acc ++ xs.map f := by
  induction xs generalizing acc with
  | nil => simp
  | cons x xs ih => simp [ih]

theorem createOrderBookChannels_eq_map (contracts : List String) :
    createOrderBookChannels contracts =
      contracts.map (fun contract => "book." ++ contract ++ ".100ms") := by
  unfold createOrderBookChannels
  rw [foldl_append_singleton]
  simp

theorem channel_name_injective (X Y : String)
    (h : "book." ++ X ++ ".100ms" = "book." ++ Y ++ ".100ms") : X = Y := by
  have h1 := congrArg String.data h
  simp only [String.data_append] at h1
  have h2 := List.append_cancel_right h1
  have h3 := List.append_cancel_left h2
  exact String.ext h3

/-- C3.  For every list of instrument identifiers, `createOrderBookChannels` returns a list of
the same length whose `i`-th element is `"book." ++ X_i ++ ".100ms"` for the `i`-th identifier
`X_i`, in input order; distinct identifiers yield distinct channel names, at every pair of
positions, and the function as a whole is injective. -/
theorem createOrderBookChannels_spec (contracts : List String) :
    (createOrderBookChannels contracts).length = contracts.length ∧
    (∀ i : Nat, (createOrderBookChannels contracts)[i]? =
        (contracts[i]?).map (fun X => "book." ++ X ++ ".100ms")) ∧
    (∀ (i j : Nat) (X Y : String), contracts[i]? = some X → contracts[j]? = some Y → X ≠ Y →
        (createOrderBookChannels contracts)[i]? ≠ (createOrderBookChannels contracts)[j]?) ∧
    Function.Injective createOrderBookChannels := by
  refine ⟨?_, ?_, ?_, ?_⟩
  · simp [createOrderBookChannels_eq_map]
  · intro i
    simp [createOrderBookChannels_eq_map, List.getElem?_map]
  · intro i j X Y hi hj hne heq
    simp only [createOrderBookChannels_eq_map, List.getElem?_map, hi, hj, Option.map_some',
      Option.some.injEq] at heq
    exact hne (channel_name_injective X Y heq)
  · intro xs ys h
    simp only [createOrderBookChannels_eq_map] at h
    exact List.map_injective_iff.mpr (fun X Y hXY => channel_name_injective X Y hXY) h

theorem createOrderBookChannels_spec_witness :
    createOrderBookChannels ["BTC-27DEC24-100000-C", "BTC-27DEC24-100000-P"] =
        ["book.BTC-27DEC24-100000-C.100ms", "book.BTC-27DEC24-100000-P.100ms"] ∧
      (createOrderBookChannels ["BTC-27DEC24-100000-C", "BTC-27DEC24-100000-P"])[0]? ≠
        (createOrderBookChannels ["BTC-27DEC24-100000-C", "BTC-27DEC24-100000-P"])[1]? :=
  ⟨by decide,
   (createOrderBookChannels_spec ["BTC-27DEC24-100000-C", "BTC-27DEC24-100000-P"]).2.2.1
     0 1 "BTC-27DEC24-100000-C" "BTC-27DEC24-100000-P" (by decide) (by decide) (by decide)⟩

/-! ## The publish path -/

/-- The events of `n` failed retry attempts for the attempt numbers `attempts`. -/
theorem retryAttempts_spec (env : Env) (producer : Nat) (msg : Bytes) :
    ∀ (attempts : List Nat) (w : World), ∃ n, n ≤ attempts.length ∧
      (∀ k, k < n → env.sendOk (w.sends + k) = false) ∧
      (n < attempts.length → env.sendOk (w.sends + n) = true) ∧
      retryAttempts env producer msg attempts w =
        { w with
          sends := w.sends + n + (if n < attempts.length then 1 else 0),
          trace := w.trace ++
            ((attempts.take n).map (fun a =>
              [Event.sendMessage producer msg false, Event.sleep (a * 2)])).flatten ++
            (if n < attempts.length then [Event.sendMessage producer msg true] else []) } := by
  intro attempts
  induction attempts with
  | nil =>
    intro w
    exact ⟨0, by simp, by simp, by simp, by simp [retryAttempts]⟩
  | cons a rest ih =>
    intro w
    cases hok : env.sendOk w.sends with
    | true =>
      refine ⟨0, by simp, by simp, by simpa using hok, ?_⟩
      simp [retryAttempts, ProduceToKafka, hok]
    | false =>
      obtain ⟨n, hn, hfail, hsucc, heq⟩ := ih
        (World.emit { w with sends := w.sends + 1,
                             trace := w.trace ++ [Event.sendMessage producer msg false] }
          (Event.sleep (a * 2)))
      refine ⟨n + 1, by simpa using hn, ?_, ?_, ?_⟩
      · intro k hk
        cases k with
        | zero => simpa using hok
        | succ k =>
          have := hfail k (by omega)
          simp only [World.emit] at this
          rw [← this]; congr 1; omega
      · intro hlt
        have := hsucc (by simpa using hlt)
        simp only [World.emit] at this
        rw [← this]; congr 1; omega
      · simp only [retryAttempts, ProduceToKafka, hok]
        rw [heq]
        simp only [World.emit, List.length_cons, Nat.add_lt_add_iff_right, List.take_succ_cons,
          List.map_cons, List.flatten_cons, List.append_assoc, List.cons_append,
          List.nil_append, List.singleton_append]
        congr 1
        omega

theorem take_attempts (n : Nat) (hn : n ≤ maxRetry) :
    (List.range' 1 maxRetry).take n = List.range' 1 n := by
  unfold maxRetry at *
  interval_cases n <;> rfl

/-- C9 as amended.  `RetryProduceToKafka` makes attempts `1, ..., n` that fail, for some
`n ≤ maxRetry`, each followed at once by a sleep of `attempt * 2` seconds and by nothing else;
when `n < maxRetry` attempt `n + 1` succeeds and no event follows it; when `n = maxRetry` the
function returns after the sleep that follows the last attempt.  So it sleeps only directly
after a failed attempt, for exactly twice the attempt number in seconds, and never after a
successful one. -/
theorem retry_backoff (env : Env) (producer : Nat) (msg : Bytes) (w : World) :
    ∃ n, n ≤ maxRetry ∧
      (∀ k, k < n → env.sendOk (w.sends + k) = false) ∧
      (n < maxRetry → env.sendOk (w.sends + n) = true) ∧
      (RetryProduceToKafka env producer msg w).trace =
        w.trace ++
          ((List.range' 1 n).map (fun attempt =>
            [Event.sendMessage producer msg false, Event.sleep (attempt * 2)])).flatten ++
          (if n < maxRetry then [Event.sendMessage producer msg true] else []) := by
  obtain ⟨n, hn, hfail, hsucc, heq⟩ :=
    retryAttempts_spec env producer msg (List.range' 1 maxRetry) w
  simp only [List.length_range'] at hn hsucc heq
  refine ⟨n, hn, hfail, hsucc, ?_⟩
  unfold RetryProduceToKafka
  rw [heq, take_attempts n hn]

theorem retry_backoff_witness :
    ∃ n, n ≤ maxRetry ∧
      (∀ k, k < n → envScenario.sendOk (World.start.sends + k) = false) ∧
      (n < maxRetry → envScenario.sendOk (World.start.sends + n) = true) ∧
      (RetryProduceToKafka envScenario 0 [7] World.start).trace =
        World.start.trace ++
          ((List.range' 1 n).map (fun attempt =>
            [Event.sendMessage 0 [7] false, Event.sleep (attempt * 2)])).flatten ++
          (if n < maxRetry then [Event.sendMessage 0 [7] true] else []) :=
  retry_backoff envScenario 0 [7] World.start

/-- C9, counterexample.  With a sink that fails on every send, the last thing
`RetryProduceToKafka` does is sleep for 10 seconds after attempt 5: a delay that is not
between two attempts. -/
theorem retry_sleeps_after_last_attempt :
    (RetryProduceToKafka envSinkDown 0 [7] World.start).trace.getLast? = some (Event.sleep 10) ∧
    (RetryProduceToKafka envSinkDown 0 [7] World.start).trace.map Event.isSend =
      [true, false, true, false, true, false, true, false, true, false] ∧
    ¬ (sleepsOnlyBeforeSend (RetryProduceToKafka envSinkDown 0 [7] World.start).trace = true) := by
  decide

theorem publish_sends_le (env : Env) (producer : Nat) (msg : Bytes) (w : World) :
    w.sends + 1 ≤ (publish env producer msg w).sends ∧
      (publish env producer msg w).sends ≤ w.sends + 1 + maxRetry := by
  unfold publish ProduceToKafka
  cases hok : env.sendOk w.sends with
  | true => simp
  | false =>
    simp only
    obtain ⟨n, hn, -, -, heq⟩ := retryAttempts_spec env producer msg (List.range' 1 maxRetry)
      { w with sends := w.sends + 1,
               trace := w.trace ++ [Event.sendMessage producer msg false] }
    unfold RetryProduceToKafka
    rw [heq]
    simp only [List.length_range'] at hn ⊢
    split <;> omega

theorem retry_when_sink_down (env : Env) (producer : Nat) (msg : Bytes) (w : World)
    (hdown : ∀ k, env.sendOk k = false) :
    (RetryProduceToKafka env producer msg w).sends = w.sends + maxRetry := by
  obtain ⟨n, hn, -, hsucc, heq⟩ :=
    retryAttempts_spec env producer msg (List.range' 1 maxRetry) w
  simp only [List.length_range'] at hn hsucc heq
  have hn5 : n = maxRetry := by
    by_contra hne
    have := hsucc (by omega)
    rw [hdown] at this
    exact Bool.false_ne_true this
  subst hn5
  unfold RetryProduceToKafka
  rw [heq]
  simp

theorem publish_when_sink_down (env : Env) (producer : Nat) (msg : Bytes) (w : World)
    (hdown : ∀ k, env.sendOk k = false) :
    (publish env producer msg w).trace = w.trace ++ publishFailureEvents producer msg ∧
    (publish env producer msg w).sends = w.sends + 6 := by
  obtain ⟨n, hn, hfail, hsucc, heq⟩ :=
    retryAttempts_spec env producer msg (List.range' 1 maxRetry)
      { w with sends := w.sends + 1,
               trace := w.trace ++ [Event.sendMessage producer msg false] }
  have hn5 : n = maxRetry := by
    simp only [List.length_range'] at hn hsucc
    by_contra hne
    have := hsucc (by omega)
    rw [hdown] at this
    exact Bool.false_ne_true this
  subst hn5
  have hpub : publish env producer msg w =
      retryAttempts env producer msg (List.range' 1 maxRetry)
        { w with sends := w.sends + 1,
                 trace := w.trace ++ [Event.sendMessage producer msg false] } := by
    simp [publish, ProduceToKafka, hdown, RetryProduceToKafka]
  rw [hpub, heq]
  refine ⟨?_, ?_⟩
  · simp [maxRetry, publishFailureEvents, List.range']
  · simp [maxRetry]

/-- C4 as amended.  The publish path of the worker always returns, having called the sink at
least once and at most `1 + maxRetry = 6` times whatever the sink answers.  When the sink
fails on every send it calls it exactly 6 times with the unchanged payload (the call of
`ProduceToKafka` in the worker, then the 5 attempts of `RetryProduceToKafka`, which are
followed by sleeps of 2, 4, 6, 8 and 10 seconds) and then gives the message up;
`RetryProduceToKafka` on its own makes exactly `maxRetry = 5` of these calls. -/
theorem publish_attempts (producer : Nat) (msg : Bytes) (w : World) :
    (∀ env : Env, w.sends + 1 ≤ (publish env producer msg w).sends ∧
      (publish env producer msg w).sends ≤ w.sends + 6) ∧
    (∀ env : Env, (∀ k, env.sendOk k = false) →
      (publish env producer msg w).trace = w.trace ++ publishFailureEvents producer msg ∧
      sentPayloads (publishFailureEvents producer msg) = List.replicate 6 msg ∧
      (publish env producer msg w).sends = w.sends + 6 ∧
      (RetryProduceToKafka env producer msg w).sends = w.sends + maxRetry) := by
  refine ⟨fun env => ?_, fun env hdown => ?_⟩
  · simpa [maxRetry, Nat.add_assoc] using publish_sends_le env producer msg w
  · obtain ⟨h1, h2⟩ := publish_when_sink_down env producer msg w hdown
    exact ⟨h1, by simp [publishFailureEvents, sentPayloads, List.replicate], h2,
      retry_when_sink_down env producer msg w hdown⟩

theorem publish_attempts_witness :
    (publish envSinkDown 0 [7] World.start).trace =
        World.start.trace ++ publishFailureEvents 0 [7] ∧
      sentPayloads (publishFailureEvents 0 [7]) = List.replicate 6 [7] ∧
      (publish envSinkDown 0 [7] World.start).sends = World.start.sends + 6 ∧
      (RetryProduceToKafka envSinkDown 0 [7] World.start).sends =
        World.start.sends + maxRetry :=
  (publish_attempts 0 [7] World.start).2 envSinkDown (fun _ => rfl)

/-- C4, counterexample.  With a sink that fails on every send, the publish path calls the
sink 6 times, not 5. -/
theorem publish_attempts_not_five :
    (sentPayloads (publish envSinkDown 0 [7] World.start).trace).length = 6 ∧
    (sentPayloads (publish envSinkDown 0 [7] World.start).trace).length ≠ 5 := by
  decide

/-! ## Reading traces: algebra -/

theorem sentPayloads_append (a b : List Event) :
    sentPayloads (a ++ b) = sentPayloads a ++ sentPayloads b := by
  induction a with
  | nil => rfl
  | cons e a ih => cases e <;> simp [sentPayloads, ih]

theorem readResults_append (a b : List Event) :
    readResults (a ++ b) = readResults a ++ readResults b := by
  induction a with
  | nil => rfl
  | cons e a ih => cases e <;> simp [readResults, ih]

theorem wgBalance_append (a b : List Event) :
    wgBalance (a ++ b) = wgBalance a + wgBalance b := by
  induction a with
  | nil => simp [wgBalance]
  | cons e a ih => cases e <;> simp [wgBalance, ih] <;> ring

theorem publishEvents_sent (producer : Nat) (msg : Bytes) (ev : List Event)
    (h : ∀ e ∈ ev, IsPublishEvent producer msg e) :
    sentPayloads ev = List.replicate (sentPayloads ev).length msg := by
  induction ev with
  | nil => rfl
  | cons e ev ih =>
    have ih := ih (fun e he => h e (List.mem_cons_of_mem _ he))
    rcases h e (List.mem_cons_self _ _) with ⟨ok, rfl⟩ | ⟨s, rfl⟩
    · simp only [sentPayloads, List.length_cons, List.replicate_succ, List.cons.injEq, true_and]
      exact ih
    · simpa only [sentPayloads] using ih

theorem publishEvents_read (producer : Nat) (msg : Bytes) (ev : List Event)
    (h : ∀ e ∈ ev, IsPublishEvent producer msg e) : readResults ev = [] := by
  induction ev with
  | nil => rfl
  | cons e ev ih =>
    have ih := ih (fun e he => h e (List.mem_cons_of_mem _ he))
    rcases h e (List.mem_cons_self _ _) with ⟨ok, rfl⟩ | ⟨s, rfl⟩ <;> simpa only [readResults] using ih

theorem retryAttempts_events (env : Env) (producer : Nat) (msg : Bytes) :
    ∀ (attempts : List Nat) (w : World), ∃ ev,
      retryAttempts env producer msg attempts w =
        { w with sends := w.sends + (sentPayloads ev).length, trace := w.trace ++ ev } ∧
      (∀ e ∈ ev, IsPublishEvent producer msg e) ∧
      (sentPayloads ev).length ≤ attempts.length := by
  intro attempts
  induction attempts with
  | nil => intro w; exact ⟨[], by simp [retryAttempts, sentPayloads], by simp, by simp [sentPayloads]⟩
  | cons a rest ih =>
    intro w
    cases hok : env.sendOk w.sends with
    | true =>
      refine ⟨[Event.sendMessage producer msg true], ?_, ?_, ?_⟩
      · simp [retryAttempts, ProduceToKafka, hok, sentPayloads]
      · intro e he
        simp only [List.mem_singleton] at he
        exact Or.inl ⟨true, he⟩
      · simp [sentPayloads]
    | false =>
      obtain ⟨ev, heq, hall, hlen⟩ := ih
        (World.emit { w with sends := w.sends + 1,
                             trace := w.trace ++ [Event.sendMessage producer msg false] }
          (Event.sleep (a * 2)))
      refine ⟨Event.sendMessage producer msg false :: Event.sleep (a * 2) :: ev, ?_, ?_, ?_⟩
      · simp only [retryAttempts, ProduceToKafka, hok]
        rw [heq]
        simp only [World.emit, sentPayloads, List.length_cons, List.append_assoc,
          List.cons_append, List.nil_append]
        congr 1
        omega
      · intro e he
        simp only [List.mem_cons] at he
        rcases he with rfl | rfl | he
        · exact Or.inl ⟨false, rfl⟩
        · exact Or.inr ⟨_, rfl⟩
        · exact hall e he
      · simpa [sentPayloads] using hlen

/-- The publish path changes nothing but the send counter and the trace, to which it adds
between 1 and 6 sends of the message, and sleeps. -/
theorem publish_events (env : Env) (producer : Nat) (msg : Bytes) (w : World) :
    ∃ ev, publish env producer msg w =
        { w with sends := w.sends + (sentPayloads ev).length, trace := w.trace ++ ev } ∧
      (∀ e ∈ ev, IsPublishEvent producer msg e) ∧
      1 ≤ (sentPayloads ev).length ∧ (sentPayloads ev).length ≤ 1 + maxRetry := by
  cases hok : env.sendOk w.sends with
  | true =>
    refine ⟨[Event.sendMessage producer msg true], ?_, ?_, ?_, ?_⟩
    · simp [publish, ProduceToKafka, hok, sentPayloads]
    · intro e he
      simp only [List.mem_singleton] at he
      exact Or.inl ⟨true, he⟩
    · simp [sentPayloads]
    · simp [sentPayloads]
  | false =>
    obtain ⟨ev, heq, hall, hlen⟩ := retryAttempts_events env producer msg
      (List.range' 1 maxRetry)
      { w with sends := w.sends + 1,
               trace := w.trace ++ [Event.sendMessage producer msg false] }
    refine ⟨Event.sendMessage producer msg false :: ev, ?_, ?_, ?_, ?_⟩
    · simp only [publish, ProduceToKafka, hok, RetryProduceToKafka]
      rw [heq]
      simp only [sentPayloads, List.length_cons, List.append_assoc, List.cons_append,
        List.nil_append]
      congr 1
      omega
    · intro e he
      simp only [List.mem_cons] at he
      rcases he with rfl | he
      · exact Or.inl ⟨false, rfl⟩
      · exact hall e he
    · simp [sentPayloads]
    · simp only [List.length_range'] at hlen
      simp only [sentPayloads, List.length_cons]
      omega

/-! ## The read loop -/

/-- C7.  Let `msgs` be the messages that `ReadMessage` delivers on a connection before the
read loop is left, by a read error or by cancellation, and let the sink succeed and fail in
any pattern.  Then the loop is left only at that point (with `handleReconnection` called
there, and only there, when it is a read error), every message has been read, and the
payloads handed to the sink are, in arrival order, each message unchanged, repeated between 1
and 6 times in a row: no message is skipped, altered or reordered, and exhausting the retries
of one message does not stop the next one from being read and forwarded. -/
theorem worker_forwards_in_order (env : Env) (reconnect : World → Option World)
    (producer conn : Nat) (msgs : List Bytes) (fuel : Nat) (w : World)
    (hfuel : msgs.length < fuel)
    (hlive : ∀ j, j < msgs.length → env.cancelled (w.checks + j) = false)
    (hread : ∀ j, j < msgs.length → env.readResult (w.reads + j) = msgs[j]?)
    (hend : env.cancelled (w.checks + msgs.length) = true ∨
      env.readResult (w.reads + msgs.length) = none) :
    ∃ ev counts w',
      w'.trace = w.trace ++ ev ∧
      readLoop env reconnect producer conn fuel w =
        (if env.cancelled (w.checks + msgs.length) then some w' else reconnect w') ∧
      readResults ev =
        msgs.map some ++ (if env.cancelled (w.checks + msgs.length) then [] else [none]) ∧
      counts.length = msgs.length ∧
      (∀ k ∈ counts, 1 ≤ k ∧ k ≤ 6) ∧
      sentPayloads ev = (List.zipWith List.replicate counts msgs).flatten ∧
      w'.reads = w.reads + msgs.length +
        (if env.cancelled (w.checks + msgs.length) then 0 else 1) := by
  induction msgs generalizing fuel w with
  | nil =>
    obtain ⟨fuel, rfl⟩ : ∃ f, fuel = f + 1 := ⟨fuel - 1, by simp at hfuel; omega⟩
    simp only [List.length_nil, Nat.add_zero] at hend ⊢
    rcases Bool.eq_false_or_eq_true (env.cancelled w.checks) with hc | hc
    · refine ⟨[Event.ctxDone true], [],
        { w with checks := w.checks + 1, trace := w.trace ++ [Event.ctxDone true] },
        rfl, ?_, ?_⟩
      · simp [readLoop, hc]
      · simp [readResults, sentPayloads, hc]
    · have hr : env.readResult w.reads = none := by
        rcases hend with h | h
        · rw [hc] at h; exact absurd h (by decide)
        · exact h
      refine ⟨[Event.ctxDone false, Event.readMessage conn none], [],
        { w with checks := w.checks + 1, reads := w.reads + 1,
                 trace := w.trace ++ [Event.ctxDone false, Event.readMessage conn none] },
        rfl, ?_, ?_⟩
      · simp [readLoop, hc, hr]
      · simp [readResults, sentPayloads, hc]
  | cons m msgs ih =>
    obtain ⟨fuel, rfl⟩ : ∃ f, fuel = f + 1 := ⟨fuel - 1, by simp at hfuel; omega⟩
    have hc : env.cancelled w.checks = false := by simpa using hlive 0 (by simp)
    have hr : env.readResult w.reads = some m := by simpa using hread 0 (by simp)
    obtain ⟨evp, hpub, hall, hlo, hhi⟩ := publish_events env producer m
      { w with checks := w.checks + 1, reads := w.reads + 1,
               trace := w.trace ++ [Event.ctxDone false] ++
                 [Event.readMessage conn (some m)] }
    have hstep : readLoop env reconnect producer conn (fuel + 1) w =
        readLoop env reconnect producer conn fuel
          (publish env producer m
            { w with checks := w.checks + 1, reads := w.reads + 1,
                     trace := w.trace ++ [Event.ctxDone false] ++
                       [Event.readMessage conn (some m)] }) := by
      simp [readLoop, hc, hr]
    rw [hstep, hpub]
    have e1 : ∀ j, w.checks + 1 + j = w.checks + (j + 1) := by intro j; omega
    have e2 : ∀ j, w.reads + 1 + j = w.reads + (j + 1) := by intro j; omega
    obtain ⟨ev, counts, w', htr, hloop, hrr, hcl, hcb, hsp, hrd⟩ := ih fuel
      { w with checks := w.checks + 1, reads := w.reads + 1,
               sends := w.sends + (sentPayloads evp).length,
               trace := w.trace ++ [Event.ctxDone false] ++
                 [Event.readMessage conn (some m)] ++ evp }
      (by simp at hfuel ⊢; omega)
      (by intro j hj; simp only [e1]; exact hlive (j + 1) (by simpa using hj))
      (by intro j hj; simp only [e2]; rw [hread (j + 1) (by simpa using hj)]; simp)
      (by simpa only [e1, e2] using hend)
    simp only [e1, e2] at htr hloop hrr hrd
    refine ⟨[Event.ctxDone false] ++ [Event.readMessage conn (some m)] ++ evp ++ ev,
      (sentPayloads evp).length :: counts, w', ?_, ?_, ?_, ?_, ?_, ?_, ?_⟩
    · rw [htr]; simp
    · simpa using hloop
    · rw [readResults_append, readResults_append, hrr, publishEvents_read producer m evp hall]
      simp [readResults]
    · simp [hcl]
    · intro k hk
      simp only [List.mem_cons] at hk
      rcases hk with rfl | hk
      · exact ⟨hlo, by simpa [maxRetry] using hhi⟩
      · exact hcb k hk
    · rw [sentPayloads_append, sentPayloads_append, hsp]
      simp only [List.zipWith_cons_cons, List.flatten_cons]
      rw [← publishEvents_sent producer m evp hall]
      simp [sentPayloads]
    · rw [hrd, List.length_cons]

theorem worker_forwards_in_order_witness :
    ∃ ev counts w',
      w'.trace = World.start.trace ++ ev ∧
      readLoop envScenario some 0 0 3 World.start =
        (if envScenario.cancelled (World.start.checks + [[1, 2], [3]].length) then some w'
          else some w') ∧
      readResults ev =
        [[1, 2], [3]].map some ++
          (if envScenario.cancelled (World.start.checks + [[1, 2], [3]].length) then []
            else [none]) ∧
      counts.length = [[1, 2], [3]].length ∧
      (∀ k ∈ counts, 1 ≤ k ∧ k ≤ 6) ∧
      sentPayloads ev = (List.zipWith List.replicate counts [[1, 2], [3]]).flatten ∧
      w'.reads = World.start.reads + [[1, 2], [3]].length +
        (if envScenario.cancelled (World.start.checks + [[1, 2], [3]].length) then 0 else 1) :=
  worker_forwards_in_order envScenario some 0 0 [[1, 2], [3]] 3 World.start
    (by decide) (by decide) (by decide) (by decide)

/-! ## Failure paths and cancellation -/

/-- After a successful set-up the worker is its read loop, ending in `handleReconnection` for
the same contracts, followed by the deferred calls. -/
theorem worker_unfold (env : Env) (fuel : Nat) (contracts : List String) (w : World)
    (h1 : env.kafkaInitOk w.producers = true) (h2 : env.dialOk w.dials = true)
    (h3 : env.writeOk w.writes = true) :
    BatchSubscribeDeribitContracts env (fuel + 1) contracts w =
      (readLoop env
        (handleReconnection env (BatchSubscribeDeribitContracts env fuel) contracts)
        w.producers w.dials (fuel + 1)
        { w with
          producers := w.producers + 1, dials := w.dials + 1, writes := w.writes + 1,
          trace := w.trace ++ [Event.kafkaInit w.producers true, Event.dial w.dials true,
            Event.writeJSON w.dials (createOrderBookChannels contracts) true] }).map
        (fun w4 => { w4 with
          wg := w4.wg - 1,
          trace := w4.trace ++ [Event.connClose w.dials, Event.producerClose w.producers,
            Event.wgDone] }) := by
  simp only [BatchSubscribeDeribitContracts, h1, h2, h3, World.done, World.emit]
  simp only [Bool.not_true, Bool.false_eq_true, if_false, List.append_assoc,
    List.cons_append, List.nil_append]
  cases readLoop env
    (handleReconnection env (BatchSubscribeDeribitContracts env fuel) contracts)
    w.producers w.dials (fuel + 1) _ <;> rfl

/-- C5, the code at the failing inputs.  With the context never cancelled: a worker whose
`Dial` fails, or whose subscription request fails, runs its deferred calls and returns; it
never sleeps and nothing dials again, whatever fuel it is given.  The same holds for the worker
that `handleReconnection` starts after a read failure: its `Dial` fails, the whole chain
returns, and the batch is served by nobody although the context is still live.  Only the
read-failure branch calls `handleReconnection`. -/
theorem connect_failure_ends_batch :
    BatchSubscribeDeribitContracts envDialFails 100 ["BTC-27DEC24-100000-C"] World.start =
      some runDialFails ∧
    runDialFails.trace.any Event.isSleep = false ∧
    BatchSubscribeDeribitContracts envSubscribeFails 100 ["BTC-27DEC24-100000-C"] World.start =
      some { World.start with
        producers := 1, dials := 1, writes := 1, wg := 0,
        trace := [Event.kafkaInit 0 true, Event.dial 0 true,
          Event.writeJSON 0 ["book.BTC-27DEC24-100000-C.100ms"] false,
          Event.connClose 0, Event.producerClose 0, Event.wgDone] } ∧
    (BatchSubscribeDeribitContracts envRedialFails 100 ["BTC-27DEC24-100000-C"]
        World.start).map (fun w => (w.dials, w.trace)) = some (2, redialTrace) ∧
    (List.range 100).all (fun k => !envRedialFails.cancelled k) = true ∧
    redialTrace.getLast? = some Event.wgDone ∧
    (redialTrace.filter Event.isSleep) = [Event.sleep 5] := by
  decide

/-- C6, the code at the failing input.  The first read on connection 0 fails and the context
is not cancelled: `handleReconnection` dials connection 1 while connection 0 has not been
closed (its deferred `conn.Close()` runs only after the nested worker has returned), so two
connections of the batch are open at the same time. -/
theorem second_connection_opened_before_first_closed :
    BatchSubscribeDeribitContracts envOneDrop 2 ["BTC-27DEC24-100000-C"] World.start =
        some oneDropFinal ∧
    oneDropFinal.trace = oneDropTrace ∧
    openConns [] (oneDropTrace.take 10) = [0, 1] ∧
    maxOpenConns [] oneDropTrace = 2 := by
  decide

/-- C8.  `handleReconnection` sleeps 5 seconds and then looks at the context once.  If it is
cancelled it returns having done nothing else: no `wg.Add`, no `Dial`, no worker.  Otherwise
it does `wg.Add(1)` and runs the worker once, on the same contracts.  A worker that finds the
context cancelled at the top of its read loop leaves the loop without reading and without
calling `handleReconnection`; the whole worker then only runs its deferred calls. -/
theorem cancellation_stops_reconnection (env : Env) (contracts : List String) (w : World) :
    (∀ worker : List String → World → Option World, env.cancelled w.checks = true →
      handleReconnection env worker contracts w =
        some { w with checks := w.checks + 1,
                      trace := w.trace ++ [Event.sleep 5, Event.ctxDone true] }) ∧
    (∀ worker : List String → World → Option World, env.cancelled w.checks = false →
      handleReconnection env worker contracts w =
        worker contracts { w with
          checks := w.checks + 1, wg := w.wg + 1,
          trace := w.trace ++ [Event.sleep 5, Event.ctxDone false, Event.wgAdd 1] }) ∧
    (∀ (reconnect : World → Option World) (producer conn fuel : Nat),
      env.cancelled w.checks = true →
      readLoop env reconnect producer conn (fuel + 1) w =
        some { w with checks := w.checks + 1, trace := w.trace ++ [Event.ctxDone true] }) ∧
    (∀ fuel : Nat, env.kafkaInitOk w.producers = true → env.dialOk w.dials = true →
      env.writeOk w.writes = true → env.cancelled w.checks = true →
      BatchSubscribeDeribitContracts env (fuel + 1) contracts w =
        some { w with
          producers := w.producers + 1, dials := w.dials + 1, writes := w.writes + 1,
          checks := w.checks + 1, wg := w.wg - 1,
          trace := w.trace ++ [Event.kafkaInit w.producers true, Event.dial w.dials true,
            Event.writeJSON w.dials (createOrderBookChannels contracts) true,
            Event.ctxDone true,
            Event.connClose w.dials, Event.producerClose w.producers, Event.wgDone] }) ∧
    (∀ fuel : Nat, env.kafkaInitOk w.producers = true → env.dialOk w.dials = true →
      env.writeOk w.writes = true → env.cancelled w.checks = false →
      env.readResult w.reads = none → env.cancelled (w.checks + 1) = true →
      BatchSubscribeDeribitContracts env (fuel + 1) contracts w =
        some { w with
          producers := w.producers + 1, dials := w.dials + 1, writes := w.writes + 1,
          checks := w.checks + 2, reads := w.reads + 1, wg := w.wg - 1,
          trace := w.trace ++ [Event.kafkaInit w.producers true, Event.dial w.dials true,
            Event.writeJSON w.dials (createOrderBookChannels contracts) true,
            Event.ctxDone false, Event.readMessage w.dials none,
            Event.sleep 5, Event.ctxDone true,
            Event.connClose w.dials, Event.producerClose w.producers, Event.wgDone] }) := by
  refine ⟨?_, ?_, ?_, ?_, ?_⟩
  · intro worker h
    simp [handleReconnection, World.emit, h]
  · intro worker h
    simp [handleReconnection, World.emit, h]
  · intro reconnect producer conn fuel h
    simp [readLoop, h]
  · intro fuel h1 h2 h3 h4
    simp [BatchSubscribeDeribitContracts, readLoop, h1, h2, h3, h4, World.done, World.emit]
  · intro fuel h1 h2 h3 h4 h5 h6
    simp [BatchSubscribeDeribitContracts, readLoop, handleReconnection, h1, h2, h3, h4, h5, h6,
      World.done, World.emit]

theorem cancellation_stops_reconnection_witness :
    handleReconnection envHealthy (fun _ w => some w) ["BTC-27DEC24-100000-C"] World.start =
        some { World.start with
          checks := 1, wg := 2,
          trace := [Event.sleep 5, Event.ctxDone false, Event.wgAdd 1] } ∧
      BatchSubscribeDeribitContracts envCancelAfterDrop 1 ["BTC-27DEC24-100000-C"]
          World.start =
        some { World.start with
          producers := 1, dials := 1, writes := 1, checks := 2, reads := 1, wg := 0,
          trace := [Event.kafkaInit 0 true, Event.dial 0 true,
            Event.writeJSON 0 (createOrderBookChannels ["BTC-27DEC24-100000-C"]) true,
            Event.ctxDone false, Event.readMessage 0 none,
            Event.sleep 5, Event.ctxDone true,
            Event.connClose 0, Event.producerClose 0, Event.wgDone] } :=
  ⟨(cancellation_stops_reconnection envHealthy ["BTC-27DEC24-100000-C"] World.start).2.1
      (fun _ w => some w) (by decide),
   (cancellation_stops_reconnection envCancelAfterDrop ["BTC-27DEC24-100000-C"]
      World.start).2.2.2.2 0 (by decide) (by decide) (by decide) (by decide) (by decide)
      (by decide)⟩

/-! ## The `sync.WaitGroup` counter -/

theorem wgNeutral_nil : WgNeutral [] :=
  ⟨rfl, fun n => by simp [wgBalance]⟩

theorem wgNeutral_append {a b : List Event} (ha : WgNeutral a) (hb : WgNeutral b) :
    WgNeutral (a ++ b) := by
  refine ⟨by rw [wgBalance_append, ha.1, hb.1]; rfl, fun n => ?_⟩
  rw [List.take_append_eq_append_take, wgBalance_append]
  have h1 := ha.2 n
  have h2 := hb.2 (n - a.length)
  omega

theorem wgNeutral_of_publish (producer : Nat) (msg : Bytes) (ev : List Event)
    (h : ∀ e ∈ ev, IsPublishEvent producer msg e) : WgNeutral ev := by
  induction ev with
  | nil => exact wgNeutral_nil
  | cons e ev ih =>
    have ih := ih (fun e he => h e (List.mem_cons_of_mem _ he))
    have hb : ∀ l : List Event, wgBalance (e :: l) = wgBalance l := by
      intro l
      rcases h e (List.mem_cons_self _ _) with ⟨ok, rfl⟩ | ⟨s, rfl⟩ <;> rfl
    refine ⟨by rw [hb]; exact ih.1, fun n => ?_⟩
    cases n with
    | zero => simp [wgBalance]
    | succ n => rw [List.take_succ_cons, hb]; exact ih.2 n

/-- An `Add(1)`, a neutral stretch and a `Done()` make a neutral stretch. -/
theorem wgNeutral_bracket {ev : List Event} (h : WgNeutral ev) :
    WgNeutral (Event.wgAdd 1 :: (ev ++ [Event.wgDone])) := by
  refine ⟨?_, fun n => ?_⟩
  · simp only [wgBalance, wgBalance_append, h.1]; norm_num
  · cases n with
    | zero => simp [wgBalance]
    | succ n =>
      rw [List.take_succ_cons]
      simp only [wgBalance]
      rw [List.take_append_eq_append_take, wgBalance_append]
      have h1 := h.2 n
      have h2 : -1 ≤ wgBalance (List.take (n - ev.length) [Event.wgDone]) := by
        cases (n - ev.length) with
        | zero => simp [wgBalance]
        | succ k => simp [wgBalance]
      push_cast
      omega

theorem follows_trans {w r s : World} {a b : List Event}
    (h1 : Follows w r a) (h2 : Follows r s b) : Follows w s (a ++ b) := by
  refine ⟨by rw [h2.1, h1.1, List.append_assoc], ?_⟩
  rw [h2.2, h1.2, wgBalance_append]; ring

/-- The read loop is neutral for the counter when the reconnection it ends in is. -/
theorem readLoop_wg (env : Env) (reconnect : World → Option World) (producer conn : Nat)
    (hrec : ∀ w r, reconnect w = some r → ∃ ev, Follows w r ev ∧ WgNeutral ev) :
    ∀ fuel w r, readLoop env reconnect producer conn fuel w = some r →
      ∃ ev, Follows w r ev ∧ WgNeutral ev := by
  intro fuel
  induction fuel with
  | zero => intro w r h; simp [readLoop] at h
  | succ fuel ih =>
    intro w r h
    rcases Bool.eq_false_or_eq_true (env.cancelled w.checks) with hc | hc
    · simp only [readLoop, hc, if_true, Option.some.injEq] at h
      subst h
      exact ⟨[Event.ctxDone true], ⟨rfl, by simp [wgBalance]⟩,
        ⟨rfl, fun n => by rcases n with _ | n <;> simp [wgBalance]⟩⟩
    · cases hr : env.readResult w.reads with
      | none =>
        simp only [readLoop, hc, hr, Bool.false_eq_true, if_false] at h
        obtain ⟨ev, hf, hn⟩ := hrec _ r h
        have h0 : WgNeutral [Event.ctxDone false, Event.readMessage conn none] :=
          ⟨rfl, fun n => by rcases n with _ | _ | n <;> simp [wgBalance]⟩
        refine ⟨[Event.ctxDone false, Event.readMessage conn none] ++ ev, ?_,
          wgNeutral_append h0 hn⟩
        refine follows_trans (r := { w with
          checks := w.checks + 1, reads := w.reads + 1,
          trace := w.trace ++ [Event.ctxDone false] ++ [Event.readMessage conn none] }) ?_ hf
        exact ⟨by simp, by simp [wgBalance]⟩
      | some msg =>
        simp only [readLoop, hc, hr, Bool.false_eq_true, if_false] at h
        obtain ⟨evp, hpub, hall, -, -⟩ := publish_events env producer msg
          { w with checks := w.checks + 1, reads := w.reads + 1,
                   trace := w.trace ++ [Event.ctxDone false] ++
                     [Event.readMessage conn (some msg)] }
        rw [hpub] at h
        obtain ⟨ev, hf, hn⟩ := ih _ r h
        have h0 : WgNeutral [Event.ctxDone false, Event.readMessage conn (some msg)] :=
          ⟨rfl, fun n => by rcases n with _ | _ | n <;> simp [wgBalance]⟩
        have hp := wgNeutral_of_publish producer msg evp hall
        refine ⟨([Event.ctxDone false, Event.readMessage conn (some msg)] ++ evp) ++ ev, ?_,
          wgNeutral_append (wgNeutral_append h0 hp) hn⟩
        refine follows_trans ?_ hf
        exact ⟨by simp, by simp [wgBalance_append, hp.1, wgBalance]⟩

/-- The reconnection is neutral for the counter when the worker it starts ends in its own
`Done()` after a neutral stretch. -/
theorem handleReconnection_wg (env : Env) (worker : List String → World → Option World)
    (contracts : List String)
    (hworker : ∀ w r, worker contracts w = some r →
      ∃ ev, Follows w r (ev ++ [Event.wgDone]) ∧ WgNeutral ev) :
    ∀ w r, handleReconnection env worker contracts w = some r →
      ∃ ev, Follows w r ev ∧ WgNeutral ev := by
  intro w r h
  rcases Bool.eq_false_or_eq_true (env.cancelled w.checks) with hc | hc
  · simp only [handleReconnection, World.emit, hc, if_true, Option.some.injEq] at h
    subst h
    exact ⟨[Event.sleep 5, Event.ctxDone true], ⟨by simp, by simp [wgBalance]⟩,
      ⟨rfl, fun n => by rcases n with _ | _ | n <;> simp [wgBalance]⟩⟩
  · simp only [handleReconnection, World.emit, hc, Bool.false_eq_true, if_false] at h
    obtain ⟨ev, hf, hn⟩ := hworker _ r h
    have h0 : WgNeutral [Event.sleep 5, Event.ctxDone false] :=
      ⟨rfl, fun n => by rcases n with _ | _ | n <;> simp [wgBalance]⟩
    refine ⟨[Event.sleep 5, Event.ctxDone false] ++
      (Event.wgAdd 1 :: (ev ++ [Event.wgDone])), ?_, wgNeutral_append h0 (wgNeutral_bracket hn)⟩
    refine ⟨by rw [hf.1]; simp, ?_⟩
    rw [hf.2]
    simp only [wgBalance_append, wgBalance]
    push_cast
    ring

theorem worker_wg (env : Env) (contracts : List String) :
    ∀ fuel w r, BatchSubscribeDeribitContracts env fuel contracts w = some r →
      ∃ ev, Follows w r (ev ++ [Event.wgDone]) ∧ WgNeutral ev := by
  intro fuel
  induction fuel with
  | zero => intro w r h; simp [BatchSubscribeDeribitContracts] at h
  | succ fuel ih =>
    intro w r h
    rcases Bool.eq_false_or_eq_true (env.kafkaInitOk w.producers) with h1 | h1
    swap
    · simp only [BatchSubscribeDeribitContracts, h1, World.done, Bool.not_false, if_true,
        Option.some.injEq] at h
      subst h
      exact ⟨[Event.kafkaInit w.producers false], ⟨by simp, by simp [wgBalance, sub_eq_add_neg]⟩,
        ⟨rfl, fun n => by rcases n with _ | n <;> simp [wgBalance]⟩⟩
    rcases Bool.eq_false_or_eq_true (env.dialOk w.dials) with h2 | h2
    swap
    · simp only [BatchSubscribeDeribitContracts, h1, h2, World.done, World.emit, Bool.not_true,
        Bool.not_false, if_true, Bool.false_eq_true, if_false, Option.some.injEq] at h
      subst h
      exact ⟨[Event.kafkaInit w.producers true, Event.dial w.dials false,
          Event.producerClose w.producers], ⟨by simp, by simp [wgBalance, sub_eq_add_neg]⟩,
        ⟨rfl, fun n => by rcases n with _ | _ | _ | n <;> simp [wgBalance]⟩⟩
    rcases Bool.eq_false_or_eq_true (env.writeOk w.writes) with h3 | h3
    swap
    · simp only [BatchSubscribeDeribitContracts, h1, h2, h3, World.done, World.emit,
        Bool.not_true, Bool.not_false, if_true, Bool.false_eq_true, if_false,
        Option.some.injEq] at h
      subst h
      exact ⟨[Event.kafkaInit w.producers true, Event.dial w.dials true,
          Event.writeJSON w.dials (createOrderBookChannels contracts) false,
          Event.connClose w.dials, Event.producerClose w.producers],
        ⟨by simp, by simp [wgBalance, sub_eq_add_neg]⟩,
        ⟨rfl, fun n => by rcases n with _ | _ | _ | _ | _ | n <;> simp [wgBalance]⟩⟩
    have hmap := worker_unfold env fuel contracts w h1 h2 h3
    rw [hmap] at h
    simp only [Option.map_eq_some'] at h
    obtain ⟨w4, hloop, rfl⟩ := h
    obtain ⟨ev, hf, hn⟩ := readLoop_wg env _ w.producers w.dials
      (handleReconnection_wg env _ contracts (ih)) _ _ _ hloop
    have h0 : WgNeutral [Event.kafkaInit w.producers true, Event.dial w.dials true,
        Event.writeJSON w.dials (createOrderBookChannels contracts) true] :=
      ⟨rfl, fun n => by rcases n with _ | _ | _ | n <;> simp [wgBalance]⟩
    have h5 : WgNeutral [Event.connClose w.dials, Event.producerClose w.producers] :=
      ⟨rfl, fun n => by rcases n with _ | _ | n <;> simp [wgBalance]⟩
    refine ⟨([Event.kafkaInit w.producers true, Event.dial w.dials true,
        Event.writeJSON w.dials (createOrderBookChannels contracts) true] ++ ev) ++
        [Event.connClose w.dials, Event.producerClose w.producers], ?_,
      wgNeutral_append (wgNeutral_append h0 hn) h5⟩
    have hd : wgBalance [Event.wgDone] = -1 := by simp [wgBalance]
    refine ⟨by simp [hf.1], ?_⟩
    show w4.wg - 1 = w.wg + _
    rw [hf.2, wgBalance_append, wgBalance_append, wgBalance_append, h0.1, hn.1, h5.1, hd]
    show w.wg + 0 - 1 = _
    ring

theorem worker_net_change (env : Env) (fuel : Nat) (contracts : List String) (w r : World)
    (h : BatchSubscribeDeribitContracts env fuel contracts w = some r) :
    r.wg = w.wg - 1 ∧
    ∃ ev, r.trace = w.trace ++ ev ++ [Event.wgDone] ∧
      r.wg = w.wg + wgBalance (ev ++ [Event.wgDone]) ∧
      wgBalance ev = 0 ∧
      (∀ n, n ≤ ev.length → w.wg ≤ w.wg + wgBalance ((ev ++ [Event.wgDone]).take n)) ∧
      (∀ n, 1 ≤ w.wg → 0 ≤ w.wg + wgBalance ((ev ++ [Event.wgDone]).take n)) := by
  obtain ⟨ev, hf, hn⟩ := worker_wg env contracts fuel w r h
  have hd : wgBalance [Event.wgDone] = -1 := by simp [wgBalance]
  have hr : r.wg = w.wg - 1 := by
    rw [hf.2, wgBalance_append, hn.1, hd]; ring
  refine ⟨hr, ev, by rw [hf.1, List.append_assoc], hf.2, hn.1, ?_, ?_⟩
  · intro n hle
    rw [List.take_append_of_le_length hle]
    have := hn.2 n
    omega
  · intro n hpos
    rw [List.take_append_eq_append_take, wgBalance_append]
    have h1 := hn.2 n
    have h2 : -1 ≤ wgBalance (List.take (n - ev.length) [Event.wgDone]) := by
      cases (n - ev.length) with
      | zero => simp [wgBalance]
      | succ k => simp [wgBalance]
    omega

/-! ## The shared counter -/

theorem isChain_of_worker (env : Env) (fuel : Nat) (contracts : List String) (r : World)
    (h : BatchSubscribeDeribitContracts env fuel contracts World.start = some r) :
    IsChain r.trace := by
  obtain ⟨ev, hf, hn⟩ := worker_wg env contracts fuel World.start r h
  exact ⟨ev, by simpa [World.start] using hf.1, hn⟩

/-- A goroutine that has not returned holds the counter up by at least one; one that has
returned holds it up by nothing. -/
theorem chain_term {evs : List Event} (h : IsChain evs) (n : Nat) (hn : n ≤ evs.length) :
    0 ≤ 1 + wgBalance (evs.take n) ∧ (1 + wgBalance (evs.take n) = 0 ↔ n = evs.length) := by
  obtain ⟨ev, rfl, hbal, hlow⟩ := h
  have hd : wgBalance [Event.wgDone] = -1 := by simp [wgBalance]
  simp only [List.length_append, List.length_singleton] at hn ⊢
  by_cases hlt : n ≤ ev.length
  · rw [List.take_append_of_le_length hlt]
    have := hlow n
    constructor
    · omega
    · constructor
      · intro h0; omega
      · intro h0; omega
  · have hn' : n = ev.length + 1 := by omega
    subst hn'
    have : List.take (ev.length + 1) (ev ++ [Event.wgDone]) = ev ++ [Event.wgDone] :=
      List.take_of_length_le (by simp)
    rw [this, wgBalance_append, hbal, hd]
    simp

theorem wgBalance_take_succ (evs : List Event) (n : Nat) (e : Event) (h : evs[n]? = some e) :
    wgBalance (evs.take (n + 1)) = wgBalance (evs.take n) + wgBalance [e] := by
  rw [List.take_succ, h, wgBalance_append]
  rfl

theorem sound_atStart (chains : List (List Event)) : Program.Sound chains Program.atStart :=
  ⟨Nat.zero_le _, fun _ _ => rfl, fun _ => Nat.zero_le _, by simp [Program.atStart]⟩

theorem sound_step (chains : List (List Event)) (p q : Program) (s : Step)
    (hp : Program.Sound chains p) (h : p.step chains s = some q) : Program.Sound chains q := by
  obtain ⟨hle, hzero, hbound, hsum⟩ := hp
  cases s with
  | launch =>
    simp only [Program.step] at h
    split at h
    · next hlt =>
      simp only [Option.some.injEq] at h
      subst h
      refine ⟨hlt, fun k hk => hzero k (by simp at hk; omega), hbound, ?_⟩
      simp only
      rw [Finset.sum_range_succ, ← hsum, hzero p.launched (Nat.le_refl _)]
      simp [wgBalance]
    · exact absurd h (by simp)
  | run k =>
    simp only [Program.step] at h
    split at h
    · next hk =>
      split at h
      · next e he =>
        simp only [Option.some.injEq] at h
        subst h
        have hlt : p.progress k < (chains.getD k []).length := by
          by_contra hcon
          rw [List.getElem?_eq_none (by omega)] at he
          exact absurd he (by simp)
        refine ⟨hle, ?_, ?_, ?_⟩
        · intro j hj
          have hne : j ≠ k := by simp at hj; omega
          simp only [Function.update_noteq hne]
          exact hzero j hj
        · intro j
          by_cases hjk : j = k
          · subst hjk; simp only [Function.update_same]; omega
          · simp only [Function.update_noteq hjk]; exact hbound j
        · simp only
          have hmem : k ∈ Finset.range p.launched := Finset.mem_range.mpr hk
          rw [hsum, ← Finset.add_sum_erase _ _ hmem, ← Finset.add_sum_erase _ _ hmem]
          simp only [Function.update_same]
          rw [wgBalance_take_succ _ _ e he]
          have hrest : ∑ x in (Finset.range p.launched).erase k,
              (1 + wgBalance (List.take (Function.update p.progress k (p.progress k + 1) x)
                (chains.getD x []))) =
              ∑ x in (Finset.range p.launched).erase k,
                (1 + wgBalance (List.take (p.progress x) (chains.getD x []))) := by
            apply Finset.sum_congr rfl
            intro x hx
            rw [Function.update_noteq (Finset.ne_of_mem_erase hx)]
          rw [hrest]
          ring
      · exact absurd h (by simp)
    · exact absurd h (by simp)

theorem sound_exec (chains : List (List Event)) :
    ∀ (steps : List Step) (p q : Program), Program.Sound chains p →
      Program.exec chains p steps = some q → Program.Sound chains q := by
  intro steps
  induction steps with
  | nil =>
    intro p q hp h
    simp only [Program.exec, Option.some.injEq] at h
    subst h; exact hp
  | cons s rest ih =>
    intro p q hp h
    simp only [Program.exec] at h
    cases hs : p.step chains s with
    | none => rw [hs] at h; exact absurd h (by simp)
    | some p1 =>
      rw [hs] at h
      exact ih p1 q (sound_step chains p p1 s hp hs) h

theorem sound_counter (chains : List (List Event)) (hchains : ∀ evs ∈ chains, IsChain evs)
    (p : Program) (hp : Program.Sound chains p) :
    0 ≤ p.wg ∧
    (p.wg = 0 ↔ ∀ k, k < p.launched → p.progress k = (chains.getD k []).length) := by
  obtain ⟨hle, -, hbound, hsum⟩ := hp
  have hterm : ∀ k ∈ Finset.range p.launched,
      0 ≤ 1 + wgBalance ((chains.getD k []).take (p.progress k)) ∧
      (1 + wgBalance ((chains.getD k []).take (p.progress k)) = 0 ↔
        p.progress k = (chains.getD k []).length) := by
    intro k hk
    have hk' : k < chains.length := by
      have := Finset.mem_range.mp hk; omega
    have hmem : chains.getD k [] ∈ chains := by
      rw [List.getD_eq_getElem _ _ hk']
      exact List.getElem_mem _
    exact chain_term (hchains _ hmem) _ (hbound k)
  rw [hsum]
  refine ⟨Finset.sum_nonneg (fun k hk => (hterm k hk).1), ?_⟩
  rw [Finset.sum_eq_zero_iff_of_nonneg (fun k hk => (hterm k hk).1)]
  constructor
  · intro h k hk
    exact ((hterm k (Finset.mem_range.mpr hk)).2).mp (h k (Finset.mem_range.mpr hk))
  · intro h k hk
    exact ((hterm k hk).2).mpr (h k (Finset.mem_range.mp hk))


/-- C10 as amended.  Every invocation of `BatchSubscribeDeribitContracts` that returns, through
any number of nested reconnections, leaves the `sync.WaitGroup` counter exactly one below
where it found it, with its own `wg.Done()` as its very last event and the counter never
below its starting value before that.  Consequently, at every point of every interleaving of
the loop of `main` with the goroutines it has started (one returning chain per batch), the
shared counter is never negative, and it is zero exactly when every chain started so far has
returned; in particular, once `main` has started the chains of all batches, it is zero only
after every batch's chain has returned. -/
theorem waitgroup_counter (batches : List (List String)) (runs : List World)
    (hruns : List.Forall₂
      (fun batch r => ∃ env fuel,
        BatchSubscribeDeribitContracts env fuel batch World.start = some r) batches runs) :
    (∀ env fuel contracts w r,
      BatchSubscribeDeribitContracts env fuel contracts w = some r →
      r.wg = w.wg - 1 ∧
      ∃ ev, r.trace = w.trace ++ ev ++ [Event.wgDone] ∧
        r.wg = w.wg + wgBalance (ev ++ [Event.wgDone]) ∧
        wgBalance ev = 0 ∧
        (∀ n, n ≤ ev.length → w.wg ≤ w.wg + wgBalance ((ev ++ [Event.wgDone]).take n)) ∧
        (∀ n, 1 ≤ w.wg → 0 ≤ w.wg + wgBalance ((ev ++ [Event.wgDone]).take n))) ∧
    (∀ steps q, Program.exec (runs.map World.trace) Program.atStart steps = some q →
      q.launched ≤ batches.length ∧
      0 ≤ q.wg ∧
      (q.wg = 0 ↔
        ∀ k, k < q.launched → q.progress k = ((runs.map World.trace).getD k []).length) ∧
      (q.launched = batches.length → q.wg = 0 →
        ∀ k, k < batches.length →
          q.progress k = ((runs.map World.trace).getD k []).length)) := by
  refine ⟨fun env fuel contracts w r h => worker_net_change env fuel contracts w r h, ?_⟩
  intro steps q hq
  have hchains : ∀ evs ∈ runs.map World.trace, IsChain evs := by
    intro evs hevs
    obtain ⟨r, hr, rfl⟩ := List.mem_map.mp hevs
    have hall : ∀ r ∈ runs, ∃ batch env fuel,
        BatchSubscribeDeribitContracts env fuel batch World.start = some r := by
      clear hq hevs hr
      induction hruns with
      | nil => intro r hr; simp at hr
      | cons h _ ih =>
        intro r hr
        simp only [List.mem_cons] at hr
        rcases hr with rfl | hr
        · obtain ⟨env, fuel, h⟩ := h
          exact ⟨_, env, fuel, h⟩
        · exact ih r hr
    obtain ⟨batch, env, fuel, h⟩ := hall r hr
    exact isChain_of_worker env fuel batch r h
  have hsound := sound_exec _ steps _ q (sound_atStart _) hq
  have hcount := sound_counter _ hchains q hsound
  have hlen : batches.length = (runs.map World.trace).length := by
    rw [List.length_map]; exact hruns.length_eq
  refine ⟨by rw [hlen]; exact hsound.1, hcount.1, hcount.2, ?_⟩
  intro hall h0 k hk
  exact hcount.2.mp h0 k (by omega)

theorem waitgroup_counter_witness :
    secondLaunched.launched ≤ [firstBatch, secondBatch].length ∧
      0 ≤ secondLaunched.wg ∧
      (secondLaunched.wg = 0 ↔
        ∀ k, k < secondLaunched.launched →
          secondLaunched.progress k =
            (([runKafkaDown, runDialFails].map World.trace).getD k []).length) ∧
      (secondLaunched.launched = [firstBatch, secondBatch].length → secondLaunched.wg = 0 →
        ∀ k, k < [firstBatch, secondBatch].length →
          secondLaunched.progress k =
            (([runKafkaDown, runDialFails].map World.trace).getD k []).length) :=
  (waitgroup_counter [firstBatch, secondBatch] [runKafkaDown, runDialFails]
    (List.Forall₂.cons ⟨envKafkaDown, 1, by decide⟩
      (List.Forall₂.cons ⟨envDialFails, 1, by decide⟩ List.Forall₂.nil))).2
    [Step.launch, Step.run 0, Step.run 0, Step.launch] secondLaunched rfl

/-- C10, counterexample.  Fifty-one instruments make two batches.  `main` starts the first
chain, whose `InitKafkaProducer` fails, and that goroutine returns before `main` reaches the
second `wg.Add(1)`: the shared counter goes 1, 1, 0 and is back at zero although the chain of
the second batch has performed none of its four events. -/
theorem counter_zero_before_every_chain_returned :
    mainBatches OptionsContractBatchSize twoBatchContracts = some [firstBatch, secondBatch] ∧
    BatchSubscribeDeribitContracts envKafkaDown 1 firstBatch World.start = some runKafkaDown ∧
    BatchSubscribeDeribitContracts envDialFails 1 secondBatch World.start =
      some runDialFails ∧
    (Program.exec [runKafkaDown.trace, runDialFails.trace] Program.atStart
        [Step.launch]).map (fun q => q.wg) = some 1 ∧
    (Program.exec [runKafkaDown.trace, runDialFails.trace] Program.atStart
        [Step.launch, Step.run 0, Step.run 0]).map
        (fun q => (q.launched, q.wg, q.progress 0, q.progress 1)) = some (1, 0, 2, 0) ∧
    runDialFails.trace.length = 4 := by
  decide

end OrderBookScraper
